import Mathlib

/-!
# Verification of the berith-chain staking / leader-selection core

Shallow embedding of `berith/staking/staking_map.go` (the `StakingMap`
ledger and the chunked roulette-wheel candidate selection) in Lean 4.

Conventions of the embedding:

* Go `*big.Int` values become `ℤ`.  Go's `big.Int.Div` is Euclidean
  division, which is exactly Lean's `/` on `ℤ`; all division sites in the
  modelled code have nonnegative operands, where Euclidean and truncated
  division coincide, so Go `int64` division (`DIF_R`) is also `/`.
* A 20-byte `common.Address` becomes a list of byte values `List ℕ`;
  `bytes.Compare` becomes the lexicographic `compareBytes` below.
* Go maps become association lists with unique keys; map iteration order
  is immaterial to every statement proved here.
* `rand.Int63n(total)` (after `rand.Seed(seed)`) is a deterministic
  stream of draws in `[0, total)`; it is modelled by an abstract stream
  `rng : ℕ → ℕ` reduced modulo `total`.  No theorem below depends on the
  concrete PRNG.
* `GetAdvantage` is a `float64` computation `min 1 ((number - block)/div)`.
  The code consumes it only as `int64(adv*10)`, an integer in `[0,10]`.
  We carry that integer (`adv10`) as a per-candidate field: for a fixed
  `(number, period)` it is a pure function of the candidate, exact in the
  two regimes exercised by the theorems (fresh stake `adv = 0.0` hence
  `adv10 = 0`, and saturated stake where the code returns the exact
  float `1` hence `adv10 = 10`).
-/

namespace Berith

/-- A 20-byte account address, as its list of byte values. -/
abbrev Addr := List ℕ

/-- Go `bytes.Compare`: lexicographic byte-wise comparison
(a shorter strict prefix compares less). -/
def compareBytes : List ℕ → List ℕ → Ordering
  | [], [] => .eq
  | [], _ :: _ => .lt
  | _ :: _, [] => .gt
  | a :: as, b :: bs =>
    if a < b then .lt else if b < a then .gt else compareBytes as bs

/-! ## Candidate selection (`Candidates`, second half of `staking_map.go`) -/

/-- `DIF_MAX` from the source. -/
def DIF_MAX : ℤ := 500000

/-- `DIF_MIN` from the source. -/
def DIF_MIN : ℤ := 10000

/-- One entry of `Candidates.selections`: address, stake balance, and the
integer `int64(GetAdvantage(number, period) * 10)` (see file header). -/
structure Cand where
  address : Addr
  stake : ℤ
  adv10 : ℤ
  deriving DecidableEq, Repr

/-- The advantage-weighted stake summed by `TotalStakeBalance`:
`advStake := (c.stake * (int64(adv*10) + 10)) / 10` (Go `big.Int` Div). -/
def advStake (c : Cand) : ℤ := c.stake * (c.adv10 + 10) / 10

/-- `Candidates.TotalStakeBalance`: sum the advantage-weighted stakes,
then divide the sum once by `1e10`. -/
def totalStakeBalance (cp : List Cand) : ℤ :=
  (cp.foldl (fun t c => t + advStake c) 0) / 10 ^ 10

/-- The per-candidate weight used by the `selector` scan in
`GetBlockCreator` (and by its `loop` when updating `total`):
`stake := new(big.Int).Div(s.stake, big.NewInt(1e+10))`.
Note it does NOT apply the advantage weighting. -/
def scanStake (stake : ℤ) : ℤ := stake / 10 ^ 10

/-- The scan of `selector`: walk the chunk in order keeping a running
copy `temp` of `total`; subtract each candidate's `scanStake`; continue
while `temp > value`, otherwise select this candidate (returning its
index and the candidate).  Returns `none` for the `"empty SRT"` error. -/
def selectorAux (value : ℤ) : List Cand → ℤ → ℕ → Option (ℕ × Cand)
  | [], _, _ => none
  | s :: rest, temp, i =>
    let temp' := temp - scanStake s.stake
    if temp' > value then selectorAux value rest temp' (i + 1)
    else some (i, s)

/-- `selector` from `GetBlockCreator`. -/
def selector (cp : List Cand) (total value : ℤ) : Option (ℕ × Cand) :=
  selectorAux value cp total 0

/-- Result of `nextCandidate cs idx`, which evaluates `cs.selections[idx:]`:
Go panics when `idx > len`, returns the `"SIZE ZERO"` error when the tail
is empty, and otherwise yields the tail capped at 100 entries. -/
inductive NextRes where
  | panic : NextRes
  | sizeZero : NextRes
  | chunk : List Cand → NextRes
  deriving DecidableEq, Repr

/-- `nextCandidate` from the source. -/
def nextCandidate (cs : List Cand) (idx : ℕ) : NextRes :=
  if cs.length < idx then .panic
  else if (cs.drop idx).length = 0 then .sizeZero
  else if (cs.drop idx).length < 100 then .chunk (cs.drop idx)
  else .chunk ((cs.drop idx).take 100)

/-- `removeSlice` from the source (`cs[:i] ++ cs[i+1:]`). -/
def removeSlice (cs : List Cand) (i : ℕ) : List Cand := cs.eraseIdx i

/-- The mutable state of one `GetBlockCreator` run: the global chunk
offset `NEXT`, the current chunk `cp.selections`, the running `total`,
the current difficulty `DIF`, the journal of assignments in assignment
order (address, score), and the position in the random stream. -/
structure RunSt where
  next : ℕ
  cp : List Cand
  total : ℤ
  dif : ℤ
  assigned : List (Addr × ℤ)
  idx : ℕ
  deriving Repr

/-- How a run ended: normal `break` out of the sampling loop, a Go
panic (out-of-range chunk slice), or exhaustion of the step fuel. -/
inductive RunKind where
  | done : RunKind
  | panicked : RunKind
  | fuelOut : RunKind
  deriving DecidableEq, Repr

/-- A finished run: its kind plus the final state. -/
structure RunRes where
  kind : RunKind
  st : RunSt
  deriving Repr

/-- One-iteration-at-a-time model of the sampling `for` loop of
`GetBlockCreator`, with an explicit fuel bound (the Go loop has none). -/
def runAux (cs : List Cand) (rng : ℕ → ℕ) (difR : ℤ) :
    ℕ → RunSt → RunRes
  | 0, st => ⟨.fuelOut, st⟩
  | fuel + 1, st =>
    if st.cp.length = 0 then
      let next' := st.next + 100
      match nextCandidate cs next' with
      | .panic => ⟨.panicked, { st with next := next' }⟩
      | .sizeZero => ⟨.done, { st with next := next' }⟩
      | .chunk cp' =>
        runAux cs rng difR fuel
          { st with next := next', cp := cp', total := totalStakeBalance cp' }
    else if st.total = 0 then ⟨.done, st⟩
    else
      let value := (rng st.idx : ℤ) % st.total
      match selector st.cp st.total value with
      | none => runAux cs rng difR fuel { st with idx := st.idx + 1 }
      | some (i, c) =>
        let score := if st.dif = DIF_MAX then DIF_MAX else st.dif
        runAux cs rng difR fuel
          { st with
            idx := st.idx + 1
            assigned := st.assigned ++ [(c.address, score)]
            dif := st.dif - difR
            total := st.total - scanStake c.stake
            cp := removeSlice st.cp i }

/-- `DIF_R := (DIF_MAX - DIF_MIN) / int64(len(cs.selections))`. -/
def difRof (cs : List Cand) : ℤ := (DIF_MAX - DIF_MIN) / (cs.length : ℤ)

/-- `GetBlockCreator`, started with the global `NEXT` equal to `next0`:
take the first chunk (an error here returns the empty map; an
out-of-range offset panics), then run the sampling loop.  The result of
the Go function is the map folded from the journal (`bcOf` below); the
final `next` field is the value the global `NEXT` retains afterwards. -/
def blockCreatorRun (cs : List Cand) (next0 : ℕ) (rng : ℕ → ℕ)
    (fuel : ℕ) : RunRes :=
  match nextCandidate cs next0 with
  | .panic => ⟨.panicked, ⟨next0, [], 0, DIF_MAX, [], 0⟩⟩
  | .sizeZero => ⟨.done, ⟨next0, [], 0, DIF_MAX, [], 0⟩⟩
  | .chunk cp0 =>
    runAux cs rng (difRof cs) fuel
      ⟨next0, cp0, totalStakeBalance cp0, DIF_MAX, [], 0⟩

/-- Set a key in an association-list map (Go `m[k] = v`). -/
def upsert {β : Type} (l : List (Addr × β)) (a : Addr) (v : β) :
    List (Addr × β) :=
  if l.any (fun p => decide (p.1 = a)) then
    l.map (fun p => if p.1 = a then (a, v) else p)
  else l ++ [(a, v)]

/-- The address-to-difficulty map `bc` built by a run, as the fold of
its assignment journal. -/
def bcOf (assigned : List (Addr × ℤ)) : List (Addr × ℤ) :=
  assigned.foldl (fun m p => upsert m p.1 p.2) []

/-- The difficulty values of a run in assignment (rank) order. -/
def scoresOf (r : RunRes) : List ℤ := r.st.assigned.map Prod.snd

/-- Invariant of the sampling loop: the current difficulty equals
`DIF_MAX` minus one decrement per assignment made, the journal's scores
are the resulting arithmetic progression, and the assignments plus the
current chunk never exceed the candidates supplied so far (the chunks
are disjoint segments of the pool). -/
def runInv (cs : List Cand) (difR : ℤ) (st : RunSt) : Prop :=
  st.dif = DIF_MAX - (st.assigned.length : ℤ) * difR ∧
  st.assigned.map Prod.snd = (List.range st.assigned.length).map
    (fun k : ℕ => DIF_MAX - (k : ℤ) * difR) ∧
  st.assigned.length + st.cp.length ≤ min (st.next + 100) cs.length

/-- `GetSeed` hashes the single byte `byte(number)`: this is the byte
string fed to SHA-256. -/
def seedInput (number : ℕ) : List ℕ := [number % 256]

/-- `GetSeed` with the hash function abstracted: the seed is a function
of the hashed input only. -/
def getSeed (hash : List ℕ → ℤ) (number : ℕ) : ℤ := hash (seedInput number)

/-- Modelled from the spec: the "big-endian encoding of the height"
over which the spec claims the seed hash is computed (a `uint64`, so
eight big-endian bytes).  Used only to compare the claim against
`seedInput`. -/
def beEncode8 (number : ℕ) : List ℕ :=
  [number / 2 ^ 56 % 256, number / 2 ^ 48 % 256, number / 2 ^ 40 % 256,
   number / 2 ^ 32 % 256, number / 2 ^ 24 % 256, number / 2 ^ 16 % 256,
   number / 2 ^ 8 % 256, number % 256]

/-! ## The staking ledger (`StakingMap`, first half of `staking_map.go`) -/

/-- `stkInfo`: one staked account's address, staked amount, and the
block number at which the stake was made. -/
structure StkInfo where
  stkAddress : Addr
  stkValue : ℤ
  stkBlockNumber : ℤ
  deriving DecidableEq, Repr

/-- `VoteResult` (declared elsewhere in the repository; its two fields
are read off the construction site in `GetDifficultyAndRank`:
`VoteResult{Score: *big.Int, Rank: int}`). -/
structure VoteResult where
  score : ℤ
  rank : ℤ
  deriving DecidableEq, Repr

/-- `StakingMap`: storage map, cached sorted address list, miner-flag
map, and the cached per-round schedule table.  Go maps are modelled as
association lists with unique keys. -/
structure StakingMapM where
  storage : List (Addr × StkInfo)
  sortedList : List Addr
  miners : List (Addr × Bool)
  table : List (Addr × VoteResult)
  deriving DecidableEq, Repr

/-- `infoForSort.Less`: stake amount descending, ties by stake block
number ascending, remaining ties by address bytes descending. -/
def stkLess (i j : StkInfo) : Bool :=
  if i.stkValue = j.stkValue then
    if i.stkBlockNumber = j.stkBlockNumber then
      compareBytes i.stkAddress j.stkAddress = .gt
    else decide (i.stkBlockNumber < j.stkBlockNumber)
  else decide (j.stkValue < i.stkValue)

/-- The non-strict order `sort.Sort` establishes: `a` may precede `b`
exactly when `Less b a` is false. -/
def sortLE (a b : StkInfo) : Prop := stkLess b a = false

instance : DecidableRel sortLE := fun a b => decEq (stkLess b a) false

/-- The sorted entry list `Sort` computes: collect the storage values
with positive amount, then sort them with `infoForSort.Less`
(`sort.Sort` guarantees exactly: the output is a permutation of the
input that is `sortLE`-sorted; insertion sort realizes that contract). -/
def sortInfos (storage : List (Addr × StkInfo)) : List StkInfo :=
  List.insertionSort sortLE
    ((storage.map Prod.snd).filter (fun v => decide (0 < v.stkValue)))

/-- `StakingMap.Sort`: return immediately if a sorted list is cached,
otherwise sort the positive-amount entries and store their addresses. -/
def sortOp (m : StakingMapM) : StakingMapM :=
  if 0 < m.sortedList.length then m
  else { m with sortedList := (sortInfos m.storage).map StkInfo.stkAddress }

/-- `StakingMap.ToArray`. -/
def toArray (m : StakingMapM) : List Addr := m.sortedList

/-- `StakingMap.SetInfo`: amount ≤ 0 deletes the entry, otherwise the
entry is upserted. -/
def setInfo (m : StakingMapM) (info : StkInfo) : StakingMapM :=
  if info.stkValue ≤ 0 then
    { m with storage := m.storage.filter (fun p => !decide (p.1 = info.stkAddress)) }
  else
    let entry : StkInfo := ⟨info.stkAddress, info.stkValue, info.stkBlockNumber⟩
    { m with storage := upsert m.storage info.stkAddress entry }

/-- `StakingMap.selectSigner`.  Building the candidate pool and calling
the block-creator selection is abstracted as `buildTable` (the call
site in the source names an older `Candidates` API than the one
defined alongside it; every theorem below about this function is
independent of `buildTable`). -/
def selectSigner (m : StakingMapM) (blockNumber : ℕ)
    (buildTable : ℕ → List Addr → List (Addr × VoteResult)) : StakingMapM :=
  let m1 := if m.sortedList.length = 0 then sortOp m else m
  if m1.sortedList.length = 0 then m1
  else { m1 with table := buildTable blockNumber m1.sortedList }

/-- `StakingMap.GetDifficultyAndRank`: returns the updated ledger (the
Go method mutates `list.table` through `selectSigner`) together with
the triple `(difficulty, rank, reordered)`. -/
def getDifficultyAndRank (m : StakingMapM) (addr : Addr)
    (blockNumber : ℕ)
    (buildTable : ℕ → List Addr → List (Addr × VoteResult)) :
    StakingMapM × ℤ × ℤ × Bool :=
  let reordered : Bool := decide (m.table.length = 0)
  let m1 := if m.table.length = 0 then selectSigner m blockNumber buildTable
            else m
  if m1.table.length = 0 then (m1, 1234, 1, false)
  else
    match m1.table.lookup addr with
    | some r => (m1, r.score, r.rank, reordered)
    | none => (m1, 0, -1, reordered)

/-! ## Codec (`EncodeRLP` / `Decode`)

`EncodeRLP` JSON-marshals the four components independently and wraps
the four byte strings in one RLP envelope; `Decode` unwraps and
unmarshals them.  The envelope is modelled as the 4-tuple itself (RLP
of `[4][]byte` is injective), and `json.Marshal` of a Go map is
modelled by its semantic content: the association list canonicalized by
sorting on the marshaled (hex) key, which for equal-length addresses is
byte-lexicographic order.  `json.Marshal` of the address slice keeps
its order. -/

/-- Canonical key order used by `json.Marshal` for a Go map. -/
def sortByKey {β : Type} (l : List (Addr × β)) : List (Addr × β) :=
  List.insertionSort (fun p q => compareBytes p.1 q.1 ≠ .gt) l

/-- The encoded form: four independently serialized components in the
fixed order {storage, miners, table, sortedList}. -/
structure Encoded where
  e0 : List (Addr × StkInfo)
  e1 : List (Addr × Bool)
  e2 : List (Addr × VoteResult)
  e3 : List Addr
  deriving DecidableEq, Repr

/-- `EncodeRLP`. -/
def encodeMap (m : StakingMapM) : Encoded :=
  ⟨sortByKey m.storage, sortByKey m.miners, sortByKey m.table, m.sortedList⟩

/-- `Decode`: rebuild a `StakingMap` from the four components. -/
def decodeMap (e : Encoded) : StakingMapM :=
  ⟨e.e0, e.e3, e.e1, e.e2⟩

/-! ## Concrete inputs used by counterexamples and witnesses -/

/-- A single fresh-stake candidate: stake `1e10`, advantage 0. -/
def candA : Cand := ⟨[1], 10 ^ 10, 0⟩

/-- A single saturated-age candidate: stake `2e10`, advantage exactly 1
(`adv10 = 10`), e.g. staked at block 0 and drawn at height 2000000 with
a 30-second period. -/
def candSat : Cand := ⟨[2], 2 * 10 ^ 10, 10⟩

/-- A pool of exactly 100 fresh-stake candidates with distinct
addresses, each staking `1e10`. -/
def poolC1 : List Cand := (List.range 100).map (fun i => ⟨[i], 10 ^ 10, 0⟩)

/-- A concrete stand-in for the seeded `rand.Int63n` stream: the draw
at step `i` is `99 - i` (the top of the shrinking range). -/
def rngC1 : ℕ → ℕ := fun i => 99 - i

/-- A candidate-pool builder stub for instantiating
`GetDifficultyAndRank` witnesses. -/
def buildTable0 : ℕ → List Addr → List (Addr × VoteResult) := fun _ _ => []

/-- A one-staker ledger with nothing cached. -/
def mC7 : StakingMapM := ⟨[([10], ⟨[10], 5, 1⟩)], [], [], []⟩

/-- A stake-change event zeroing the amount of address `[10]`. -/
def infoZero : StkInfo := ⟨[10], 0, 0⟩

/-- A two-staker ledger with nothing cached. -/
def mC6 : StakingMapM :=
  ⟨[([10], ⟨[10], 5, 1⟩), ([11], ⟨[11], 7, 2⟩)], [], [], []⟩

/-- A ledger with all four components populated (storage keys out of
canonical order). -/
def mC8 : StakingMapM :=
  ⟨[([11], ⟨[11], 7, 2⟩), ([10], ⟨[10], 5, 1⟩)], [[11], [10]],
   [([12], true)], [([10], ⟨400000, 0⟩), ([11], ⟨395100, 1⟩)]⟩

/-- The empty ledger. -/
def mC9 : StakingMapM := ⟨[], [], [], []⟩

/-- A ledger whose cached schedule table is non-empty. -/
def mC10 : StakingMapM := ⟨[], [], [], [([10], ⟨500000, 0⟩)]⟩

/-! ## Order lemmas for `compareBytes` and `infoForSort.Less` -/

theorem compareBytes_swap :
    ∀ x y : List ℕ, compareBytes y x = (compareBytes x y).swap := by
  intro x
  induction x with
  | nil => intro y; cases y <;> rfl
  | cons a as ih =>
    intro y
    cases y with
    | nil => rfl
    | cons b bs =>
      simp only [compareBytes]
      rcases lt_trichotomy a b with h | h | h
      · have h' : ¬ b < a := by omega
        simp [h, h', Ordering.swap]
      · have h1 : ¬ a < b := by omega
        have h2 : ¬ b < a := by omega
        simpa [h1, h2] using ih bs
      · have h' : ¬ a < b := by omega
        simp [h, h', Ordering.swap]

theorem compareBytes_eq_iff :
    ∀ x y : List ℕ, compareBytes x y = .eq ↔ x = y := by
  intro x
  induction x with
  | nil => intro y; cases y <;> simp [compareBytes]
  | cons a as ih =>
    intro y
    cases y with
    | nil => simp [compareBytes]
    | cons b bs =>
      simp only [compareBytes]
      rcases lt_trichotomy a b with h | h | h
      · have h' : a ≠ b := by omega
        simp [h, h']
      · have h1 : ¬ a < b := by omega
        have h2 : ¬ b < a := by omega
        simp [h1, h2, h, ih bs]
      · have h1 : ¬ a < b := by omega
        have h' : a ≠ b := by omega
        simp [h1, h, h']

theorem compareBytes_gt_trans :
    ∀ x y z : List ℕ, compareBytes x y = .gt → compareBytes y z = .gt →
      compareBytes x z = .gt := by
  intro x
  induction x with
  | nil =>
    intro y z h1 _
    cases y <;> simp [compareBytes] at h1
  | cons a as ih =>
    intro y z h1 h2
    cases y with
    | nil => cases z <;> simp [compareBytes] at h2
    | cons b bs =>
      cases z with
      | nil => simp [compareBytes]
      | cons c cs =>
        simp only [compareBytes] at h1 h2 ⊢
        rcases lt_trichotomy a b with hab | hab | hab
        · simp [hab] at h1
        · have n1 : ¬ a < b := by omega
          have n2 : ¬ b < a := by omega
          simp only [n1, n2, if_neg, if_false] at h1
          rcases lt_trichotomy b c with hbc | hbc | hbc
          · simp [hbc] at h2
          · have m1 : ¬ b < c := by omega
            have m2 : ¬ c < b := by omega
            simp only [m1, m2, if_neg, if_false] at h2
            have k1 : ¬ a < c := by omega
            have k2 : ¬ c < a := by omega
            simp only [k1, k2, if_neg, if_false]
            exact ih bs cs h1 h2
          · have k1 : ¬ a < c := by omega
            have k2 : c < a := by omega
            simp [k1, k2]
        · rcases lt_trichotomy b c with hbc | hbc | hbc
          · simp [hbc] at h2
          · have k1 : ¬ a < c := by omega
            have k2 : c < a := by omega
            simp [k1, k2]
          · have k1 : ¬ a < c := by omega
            have k2 : c < a := by omega
            simp [k1, k2]

theorem compareBytes_notgt_trans {x y z : List ℕ}
    (h1 : compareBytes x y ≠ .gt) (h2 : compareBytes y z ≠ .gt) :
    compareBytes x z ≠ .gt := by
  intro h
  rcases e2 : compareBytes y z with _ | _ | _
  · have hz : compareBytes z y = .gt := by
      rw [compareBytes_swap]; rw [e2]; rfl
    have := compareBytes_gt_trans x z y h hz
    exact h1 this
  · have : y = z := (compareBytes_eq_iff y z).mp e2
    subst this
    exact h1 h
  · exact h2 e2

theorem stkLess_eq_true_iff (i j : StkInfo) :
    stkLess i j = true ↔
      (j.stkValue < i.stkValue ∨
        (i.stkValue = j.stkValue ∧
          (i.stkBlockNumber < j.stkBlockNumber ∨
            (i.stkBlockNumber = j.stkBlockNumber ∧
              compareBytes i.stkAddress j.stkAddress = .gt)))) := by
  unfold stkLess
  split_ifs with h1 h2 <;> simp_all

theorem stkLess_eq_false_iff (i j : StkInfo) :
    stkLess i j = false ↔
      (i.stkValue < j.stkValue ∨
        (i.stkValue = j.stkValue ∧
          (j.stkBlockNumber < i.stkBlockNumber ∨
            (i.stkBlockNumber = j.stkBlockNumber ∧
              compareBytes i.stkAddress j.stkAddress ≠ .gt)))) := by
  have h := stkLess_eq_true_iff i j
  constructor
  · intro hf
    have hne : ¬ (stkLess i j = true) := by simp [hf]
    rw [h] at hne
    push_neg at hne
    obtain ⟨hv, hrest⟩ := hne
    rcases lt_trichotomy i.stkValue j.stkValue with h1 | h1 | h1
    · exact Or.inl h1
    · obtain ⟨hb, hrest2⟩ := hrest h1
      refine Or.inr ⟨h1, ?_⟩
      rcases lt_trichotomy i.stkBlockNumber j.stkBlockNumber with h2 | h2 | h2
      · omega
      · exact Or.inr ⟨h2, hrest2 h2⟩
      · exact Or.inl h2
    · omega
  · intro hg
    rcases hb : stkLess i j with _ | _
    · rfl
    · exfalso
      have := h.mp hb
      rcases hg with hg | ⟨hgv, hg⟩
      · rcases this with h' | ⟨h', _⟩ <;> omega
      · rcases this with h' | ⟨_, h'⟩
        · omega
        · rcases hg with hg | ⟨hgb, hg⟩
          · rcases h' with h' | ⟨h', _⟩ <;> omega
          · rcases h' with h' | ⟨_, h'⟩
            · omega
            · exact hg h'

theorem sortLE_total : ∀ a b : StkInfo, sortLE a b ∨ sortLE b a := by
  intro a b
  unfold sortLE
  rcases hv : stkLess b a with _ | _
  · exact Or.inl rfl
  · right
    rw [stkLess_eq_false_iff]
    rw [stkLess_eq_true_iff] at hv
    rcases hv with h | ⟨hv, h⟩
    · exact Or.inl h
    · refine Or.inr ⟨hv.symm, ?_⟩
      rcases h with h | ⟨hb, h⟩
      · exact Or.inl h
      · refine Or.inr ⟨hb.symm, ?_⟩
        rw [compareBytes_swap, h]
        simp [Ordering.swap]

theorem sortLE_trans :
    ∀ a b c : StkInfo, sortLE a b → sortLE b c → sortLE a c := by
  intro a b c h1 h2
  unfold sortLE at h1 h2 ⊢
  rw [stkLess_eq_false_iff] at h1 h2 ⊢
  rcases h1 with h1 | ⟨h1v, h1⟩
  · rcases h2 with h2 | ⟨h2v, h2⟩
    · exact Or.inl (by omega)
    · exact Or.inl (by omega)
  · rcases h2 with h2 | ⟨h2v, h2⟩
    · exact Or.inl (by omega)
    · refine Or.inr ⟨by omega, ?_⟩
      rcases h1 with h1 | ⟨h1b, h1⟩
      · rcases h2 with h2 | ⟨h2b, h2⟩
        · exact Or.inl (by omega)
        · exact Or.inl (by omega)
      · rcases h2 with h2 | ⟨h2b, h2⟩
        · exact Or.inl (by omega)
        · exact Or.inr ⟨by omega, compareBytes_notgt_trans h2 h1⟩

instance : IsTotal StkInfo sortLE := ⟨sortLE_total⟩

instance : IsTrans StkInfo sortLE := ⟨sortLE_trans⟩

/-! ## Association-list lemmas -/

theorem lookup_eq_of_perm {β : Type} {l l' : List (Addr × β)}
    (h : l.Perm l') :
    (l.map Prod.fst).Nodup → ∀ a : Addr, l.lookup a = l'.lookup a := by
  induction h with
  | nil => intro _ _; rfl
  | cons x h ih =>
    intro hnd a
    obtain ⟨k, v⟩ := x
    simp only [List.map_cons, List.nodup_cons] at hnd
    cases hk : a == k with
    | true => simp [List.lookup, hk]
    | false => simpa [List.lookup, hk] using ih hnd.2 a
  | swap x y l =>
    intro hnd a
    obtain ⟨k1, v1⟩ := x
    obtain ⟨k2, v2⟩ := y
    simp only [List.map_cons, List.nodup_cons, List.mem_cons] at hnd
    have hne : k2 ≠ k1 := fun e => hnd.1 (Or.inl e)
    cases hk2 : a == k2 with
    | true =>
      have ha2 : a = k2 := by simpa using hk2
      have hk1 : (a == k1) = false := by
        simp [ha2]
        exact hne
      simp [List.lookup, hk1, hk2]
    | false => cases hk1 : a == k1 with
      | true => simp [List.lookup, hk1, hk2]
      | false => simp [List.lookup, hk1, hk2]
  | trans h1 h2 ih1 ih2 =>
    intro hnd a
    have hnd2 : (_ : List (Addr × β)).map Prod.fst |>.Nodup :=
      ((h1.map Prod.fst).nodup_iff).mp hnd
    exact (ih1 hnd a).trans (ih2 hnd2 a)

theorem lookup_filter_out {β : Type} (a : Addr) :
    ∀ l : List (Addr × β),
      (l.filter (fun p => !decide (p.1 = a))).lookup a = none := by
  intro l
  induction l with
  | nil => rfl
  | cons p t ih =>
    by_cases hp : p.1 = a
    · simpa [List.filter, hp] using ih
    · have : (a == p.1) = false := by
        simp
        exact fun e => hp e.symm
      simpa [List.filter, hp, List.lookup, this] using ih

/-! ## Settled claims -/

/-- C2 (counterexample): the claim says any two heights with distinct
big-endian encodings feed distinct inputs to the seed hash.  Heights 0
and 256 have distinct big-endian encodings, yet `GetSeed` builds the
identical hash input `[]byte{byte(number)} = [0]` for both. -/
theorem C2_counterexample :
    seedInput 0 = seedInput 256 ∧ beEncode8 0 ≠ beEncode8 256 := by
  constructor
  · rfl
  · decide

/-- C2 (amended): `GetSeed` hashes only the single low byte
`byte(number)` of the height, so the hash input — and hence, for the
fixed hash, the seed — is a pure function of `blockHeight mod 256`:
inputs coincide exactly when the heights agree mod 256, and every node
derives the same seed for the same height. -/
theorem C2_seed_low_byte (hash : List ℕ → ℤ) (m n : ℕ) :
    (seedInput m = seedInput n ↔ m % 256 = n % 256) ∧
    (m % 256 = n % 256 → getSeed hash m = getSeed hash n) := by
  constructor
  · constructor
    · intro h
      simpa [seedInput] using h
    · intro h
      simp [seedInput, h]
  · intro h
    simp [getSeed, seedInput, h]

/-- C2 (witness). -/
theorem C2_seed_low_byte_witness :
    getSeed (fun _ => 0) 0 = getSeed (fun _ => 0) 256 :=
  (C2_seed_low_byte (fun _ => 0) 0 256).2 (by decide)

/-- C3 (the code at the failing input): for one saturated-age candidate
(stake `2e10`, advantage 1, so the multiplier is `(10 + 10*1)/10 = 2`),
`TotalStakeBalance` yields 4, but the `selector` scan subtracts
`stake / 1e10 = 2` — the advantage weighting is missing from the scan,
so the scan weights do not sum to the `total` that bounds the draw. -/
theorem C3_scan_weight_mismatch :
    totalStakeBalance [candSat] = 4 ∧
    scanStake candSat.stake = 2 ∧
    totalStakeBalance [candSat] ≠ scanStake candSat.stake := by
  refine ⟨by decide, by decide, by decide⟩

/-- C9: on a ledger with zero staked addresses (empty storage, nothing
cached), `GetDifficultyAndRank` returns difficulty 1234, rank 1 and
recomputed flag `false`, for every queried address, block height and
candidate-pool builder, and never fails. -/
theorem C9_empty_pool_fallback (m : StakingMapM) (addr : Addr)
    (blockNumber : ℕ)
    (buildTable : ℕ → List Addr → List (Addr × VoteResult))
    (hs : m.storage = []) (ho : m.sortedList = []) (ht : m.table = []) :
    (getDifficultyAndRank m addr blockNumber buildTable).2 =
      (1234, 1, false) := by
  simp [getDifficultyAndRank, selectSigner, sortOp, sortInfos, hs, ho, ht,
    List.insertionSort]

/-- C9 (witness). -/
theorem C9_empty_pool_fallback_witness :
    (getDifficultyAndRank mC9 [0] 7 buildTable0).2 = (1234, 1, false) :=
  C9_empty_pool_fallback mC9 [0] 7 buildTable0 rfl rfl rfl

/-- C10: on a ledger whose cached schedule table is non-empty, querying
an address absent from the table returns the unranked sentinel — score
0, rank -1 — with recomputed flag `false`, and never fails. -/
theorem C10_unranked_default (m : StakingMapM) (addr : Addr)
    (blockNumber : ℕ)
    (buildTable : ℕ → List Addr → List (Addr × VoteResult))
    (ht : m.table ≠ []) (hl : m.table.lookup addr = none) :
    (getDifficultyAndRank m addr blockNumber buildTable).2 =
      (0, -1, false) := by
  have hlen : ¬ (m.table.length = 0) := by
    simpa [List.length_eq_zero] using ht
  simp [getDifficultyAndRank, hlen, hl]

/-- C10 (witness). -/
theorem C10_unranked_default_witness :
    (getDifficultyAndRank mC10 [11] 7 buildTable0).2 = (0, -1, false) :=
  C10_unranked_default mC10 [11] 7 buildTable0 (by decide) (by decide)

/-- C7 (counterexample): starting from a one-staker ledger, compute the
ordering (warming the cache), then set the staker's amount to 0.  The
storage entry is deleted, yet the address still appears in the output
of `Sort`/`ToArray`, because `Sort` returns the warm cached list
unchanged — contradicting the claim that the address no longer appears
without explicit deletion. -/
theorem C7_counterexample :
    (setInfo (sortOp mC7) infoZero).storage = [] ∧
    [10] ∈ toArray (sortOp (setInfo (sortOp mC7) infoZero)) := by
  constructor
  · decide
  · decide

/-- C7 (amended): `SetInfo` with amount ≤ 0 removes the storage entry,
and the address no longer appears in `Sort`/`ToArray` output provided
the cached ordering is empty when the ordering is next computed (and
each storage entry records its own key as its address).  With a warm
cache, `Sort`'s early return keeps returning the stale list. -/
theorem C7_amended (m : StakingMapM) (info : StkInfo)
    (hv : info.stkValue ≤ 0)
    (hwf : ∀ p ∈ m.storage, (p : Addr × StkInfo).2.stkAddress = p.1)
    (hc : m.sortedList = []) :
    (setInfo m info).storage.lookup info.stkAddress = none ∧
    info.stkAddress ∉ toArray (sortOp (setInfo m info)) := by
  have hset : setInfo m info =
      { m with storage :=
          m.storage.filter (fun p => !decide (p.1 = info.stkAddress)) } := by
    simp [setInfo, hv]
  constructor
  · rw [hset]
    exact lookup_filter_out info.stkAddress m.storage
  · rw [hset]
    intro hmem
    simp only [toArray, sortOp, hc] at hmem
    simp only [List.length_nil, lt_irrefl, if_neg, if_false] at hmem
    rcases List.mem_map.mp hmem with ⟨e, he, hea⟩
    have he2 : e ∈ (((m.storage.filter
        (fun p => !decide (p.1 = info.stkAddress))).map Prod.snd).filter
        (fun v => decide (0 < v.stkValue))) :=
      (List.perm_insertionSort sortLE _).mem_iff.mp he
    have he3 := (List.mem_filter.mp he2).1
    rcases List.mem_map.mp he3 with ⟨p, hp, hpe⟩
    have hp2 := List.mem_filter.mp hp
    have : p.2.stkAddress = p.1 := hwf p hp2.1
    have hne : p.1 ≠ info.stkAddress := by
      have := hp2.2
      simpa using this
    apply hne
    rw [← this, hpe, hea]

/-- C7 (witness for the amended claim). -/
theorem C7_amended_witness :
    (setInfo mC7 infoZero).storage.lookup [10] = none ∧
    [10] ∉ toArray (sortOp (setInfo mC7 infoZero)) :=
  C7_amended mC7 infoZero (by decide) (by decide) rfl

/-- Sort is idempotent: a second call returns the cached list (or, when
even the computed list is empty, recomputes the same empty list). -/
theorem sortOp_idem (m : StakingMapM) : sortOp (sortOp m) = sortOp m := by
  by_cases h : 0 < m.sortedList.length
  · simp [sortOp, h]
  · by_cases h2 : 0 < ((sortInfos m.storage).map StkInfo.stkAddress).length
    · simp [sortOp, h, h2]
    · simp [sortOp, h, h2]

/-- C6: on a ledger with no cached ordering, `Sort` produces the
address list of the sorted entry list; that entry list is a permutation
of exactly the positive-amount storage entries; it is sorted by stake
amount descending, ties broken by stake block number ascending,
remaining ties broken by address bytes descending; and re-running
`Sort` without mutation returns the same ledger (idempotence). -/
theorem C6_ordering_invariant (m : StakingMapM) (h : m.sortedList = []) :
    (sortOp m).sortedList = (sortInfos m.storage).map StkInfo.stkAddress ∧
    (sortInfos m.storage).Perm
      ((m.storage.map Prod.snd).filter (fun v => decide (0 < v.stkValue))) ∧
    (sortInfos m.storage).Pairwise (fun a b =>
      b.stkValue < a.stkValue ∨
        (b.stkValue = a.stkValue ∧
          (a.stkBlockNumber < b.stkBlockNumber ∨
            (b.stkBlockNumber = a.stkBlockNumber ∧
              compareBytes b.stkAddress a.stkAddress ≠ .gt)))) ∧
    sortOp (sortOp m) = sortOp m := by
  refine ⟨?_, ?_, ?_, sortOp_idem m⟩
  · simp [sortOp, h]
  · exact List.perm_insertionSort sortLE _
  · have hs : (sortInfos m.storage).Pairwise sortLE :=
      List.sorted_insertionSort sortLE _
    refine hs.imp ?_
    intro a b hab
    exact (stkLess_eq_false_iff b a).mp hab

/-- C6 (witness). -/
theorem C6_ordering_invariant_witness :
    (sortInfos mC6.storage).Perm
      ((mC6.storage.map Prod.snd).filter (fun v => decide (0 < v.stkValue))) :=
  (C6_ordering_invariant mC6 rfl).2.1

/-- C8: decoding the encoding of a ledger reproduces all four
components exactly: the three maps (storage, miner flags, schedule
table) as maps — every key looks up to the same value — and the ordered
address list verbatim. -/
theorem C8_roundtrip (m : StakingMapM)
    (h0 : (m.storage.map Prod.fst).Nodup)
    (h1 : (m.miners.map Prod.fst).Nodup)
    (h2 : (m.table.map Prod.fst).Nodup) :
    (∀ a, (decodeMap (encodeMap m)).storage.lookup a = m.storage.lookup a) ∧
    (∀ a, (decodeMap (encodeMap m)).miners.lookup a = m.miners.lookup a) ∧
    (∀ a, (decodeMap (encodeMap m)).table.lookup a = m.table.lookup a) ∧
    (decodeMap (encodeMap m)).sortedList = m.sortedList := by
  refine ⟨?_, ?_, ?_, rfl⟩
  · intro a
    have hp : (sortByKey m.storage).Perm m.storage :=
      List.perm_insertionSort _ _
    have hnd : ((sortByKey m.storage).map Prod.fst).Nodup :=
      ((hp.map Prod.fst).nodup_iff).mpr h0
    exact lookup_eq_of_perm hp hnd a
  · intro a
    have hp : (sortByKey m.miners).Perm m.miners :=
      List.perm_insertionSort _ _
    have hnd : ((sortByKey m.miners).map Prod.fst).Nodup :=
      ((hp.map Prod.fst).nodup_iff).mpr h1
    exact lookup_eq_of_perm hp hnd a
  · intro a
    have hp : (sortByKey m.table).Perm m.table :=
      List.perm_insertionSort _ _
    have hnd : ((sortByKey m.table).map Prod.fst).Nodup :=
      ((hp.map Prod.fst).nodup_iff).mpr h2
    exact lookup_eq_of_perm hp hnd a

/-- C8 (witness). -/
theorem C8_roundtrip_witness :
    (decodeMap (encodeMap mC8)).sortedList = mC8.sortedList :=
  (C8_roundtrip mC8 (by decide) (by decide) (by decide)).2.2.2

/-! ## The sampling-loop invariant (difficulty bookkeeping) -/

theorem selectorAux_lt (value : ℤ) :
    ∀ (l : List Cand) (temp : ℤ) (i j : ℕ) (c : Cand),
      selectorAux value l temp i = some (j, c) → j < i + l.length := by
  intro l
  induction l with
  | nil =>
    intro temp i j c h
    simp [selectorAux] at h
  | cons s rest ih =>
    intro temp i j c h
    simp only [selectorAux] at h
    split_ifs at h with hcond
    · have h2 := ih _ (i + 1) j c h
      simp only [List.length_cons]
      omega
    · simp only [Option.some.injEq, Prod.mk.injEq] at h
      obtain ⟨h1, _⟩ := h
      simp only [List.length_cons]
      omega

theorem selector_lt {cp : List Cand} {total value : ℤ} {i : ℕ} {c : Cand}
    (h : selector cp total value = some (i, c)) : i < cp.length := by
  have := selectorAux_lt value cp total 0 i c h
  omega

theorem nextCandidate_chunk_len {cs : List Cand} {idx : ℕ} {cp : List Cand}
    (h : nextCandidate cs idx = .chunk cp) :
    idx ≤ cs.length ∧ cp.length = min 100 (cs.length - idx) := by
  simp only [nextCandidate] at h
  split_ifs at h with hx hy hz
  · refine ⟨by omega, ?_⟩
    simp only [NextRes.chunk.injEq] at h
    subst h
    simp only [List.length_drop] at hz ⊢
    omega
  · refine ⟨by omega, ?_⟩
    simp only [NextRes.chunk.injEq] at h
    subst h
    simp only [List.length_take, List.length_drop] at hz ⊢

theorem runAux_inv (cs : List Cand) (rng : ℕ → ℕ) (difR : ℤ) :
    ∀ (fuel : ℕ) (st : RunSt), runInv cs difR st →
      runInv cs difR (runAux cs rng difR fuel st).st := by
  intro fuel
  induction fuel with
  | zero => intro st h; exact h
  | succ fuel ih =>
    intro st h
    obtain ⟨h1, h2, h3⟩ := h
    by_cases hcp : st.cp.length = 0
    · rcases hnc : nextCandidate cs (st.next + 100) with _ | _ | cp'
      · simp only [runAux, hcp, if_true, hnc]
        exact ⟨h1, h2, by simp only []; omega⟩
      · simp only [runAux, hcp, if_true, hnc]
        exact ⟨h1, h2, by simp only []; omega⟩
      · simp only [runAux, hcp, if_true, hnc]
        apply ih
        obtain ⟨hle, hlen⟩ := nextCandidate_chunk_len hnc
        exact ⟨h1, h2, by simp only []; omega⟩
    · by_cases htot : st.total = 0
      · simp only [runAux, hcp, if_false, htot, if_true]
        exact ⟨h1, h2, h3⟩
      · rcases hsel : selector st.cp st.total ((rng st.idx : ℤ) % st.total)
          with _ | ⟨i, c⟩
        · simp only [runAux, hcp, if_false, htot, hsel]
          apply ih
          exact ⟨h1, h2, h3⟩
        · have hi : i < st.cp.length := selector_lt hsel
          simp only [runAux, hcp, if_false, htot, hsel]
          apply ih
          have hscore : (if st.dif = DIF_MAX then DIF_MAX else st.dif)
              = st.dif := by
            split_ifs with hd
            · exact hd.symm
            · rfl
          refine ⟨?_, ?_, ?_⟩
          · simp only [List.length_append, List.length_singleton]
            rw [h1]
            push_cast
            ring
          · simp only [List.map_append, List.length_append,
              List.length_singleton, List.map_cons, List.map_nil, h2,
              hscore, List.range_succ]
            simp [h1]
          · simp only [removeSlice, List.length_append,
              List.length_singleton, List.length_eraseIdx, hi, if_true]
            omega

theorem difRof_nonneg (cs : List Cand) : 0 ≤ difRof cs := by
  unfold difRof DIF_MAX DIF_MIN
  exact Int.ediv_nonneg (by norm_num) (by positivity)

theorem mul_difRof_le (cs : List Cand) :
    (cs.length : ℤ) * difRof cs ≤ DIF_MAX - DIF_MIN := by
  rcases Nat.eq_zero_or_pos cs.length with h | h
  · simp [h, difRof, DIF_MAX, DIF_MIN]
  · have hn : (cs.length : ℤ) ≠ 0 := by positivity
    have := Int.ediv_add_emod (DIF_MAX - DIF_MIN) (cs.length : ℤ)
    have hm := Int.emod_nonneg (DIF_MAX - DIF_MIN) hn
    unfold difRof
    omega

/-- C5: in one round started from a fresh chunk offset, the assigned
difficulties form, in assignment (rank) order, exactly the progression
`DIF_MAX, DIF_MAX - DIF_R, DIF_MAX - 2*DIF_R, …` with
`DIF_R = (DIF_MAX - DIF_MIN) / candidateCount`; at most `candidateCount`
assignments are made; hence the sequence is monotonically
non-increasing, never falls below `DIF_MIN = 10000`, and its first
element (when any assignment happens) is `DIF_MAX = 500000`. -/
theorem C5_difficulty_monotonic (cs : List Cand) (rng : ℕ → ℕ)
    (fuel : ℕ) :
    scoresOf (blockCreatorRun cs 0 rng fuel) =
      (List.range (blockCreatorRun cs 0 rng fuel).st.assigned.length).map
        (fun k : ℕ => DIF_MAX - (k : ℤ) * difRof cs) ∧
    (blockCreatorRun cs 0 rng fuel).st.assigned.length ≤ cs.length ∧
    (scoresOf (blockCreatorRun cs 0 rng fuel)).Pairwise
      (fun a b => b ≤ a) ∧
    (∀ s ∈ scoresOf (blockCreatorRun cs 0 rng fuel), DIF_MIN ≤ s) ∧
    ((scoresOf (blockCreatorRun cs 0 rng fuel)).head? = some DIF_MAX ∨
      scoresOf (blockCreatorRun cs 0 rng fuel) = []) := by
  have hinv : runInv cs (difRof cs)
      (blockCreatorRun cs 0 rng fuel).st := by
    unfold blockCreatorRun
    rcases hnc : nextCandidate cs 0 with _ | _ | cp0
    · exact ⟨by simp [DIF_MAX], by simp, by simp⟩
    · exact ⟨by simp [DIF_MAX], by simp, by simp⟩
    · apply runAux_inv
      obtain ⟨_, hlen⟩ := nextCandidate_chunk_len hnc
      exact ⟨by simp [DIF_MAX], by simp, by simp only [List.length_nil]; omega⟩
  obtain ⟨h1, h2, h3⟩ := hinv
  have hd : 0 ≤ difRof cs := difRof_nonneg cs
  have hlen : (blockCreatorRun cs 0 rng fuel).st.assigned.length ≤
      cs.length := by omega
  have hsc : scoresOf (blockCreatorRun cs 0 rng fuel) =
      (List.range (blockCreatorRun cs 0 rng fuel).st.assigned.length).map
        (fun k : ℕ => DIF_MAX - (k : ℤ) * difRof cs) := h2
  refine ⟨hsc, hlen, ?_, ?_, ?_⟩
  · rw [hsc]
    refine List.Pairwise.map _ ?_ (List.pairwise_lt_range _)
    intro a b hab
    have : (a : ℤ) * difRof cs ≤ (b : ℤ) * difRof cs := by
      have ha : (a : ℤ) ≤ (b : ℤ) := by exact_mod_cast hab.le
      exact mul_le_mul_of_nonneg_right ha hd
    omega
  · intro s hs
    rw [hsc] at hs
    rcases List.mem_map.mp hs with ⟨k, hk, rfl⟩
    have hk2 : k < (blockCreatorRun cs 0 rng fuel).st.assigned.length :=
      List.mem_range.mp hk
    have hkn : (k : ℤ) ≤ (cs.length : ℤ) - 1 := by
      have hk3 : k < cs.length := by omega
      omega
    have hstep : (k : ℤ) * difRof cs ≤ ((cs.length : ℤ) - 1) * difRof cs :=
      mul_le_mul_of_nonneg_right hkn hd
    have hmul := mul_difRof_le cs
    have hone : ((cs.length : ℤ) - 1) * difRof cs =
        (cs.length : ℤ) * difRof cs - difRof cs := by ring
    unfold DIF_MAX DIF_MIN at hmul ⊢
    omega
  · rw [hsc]
    rcases hn : (blockCreatorRun cs 0 rng fuel).st.assigned.length
      with _ | n
    · right; rfl
    · left
      rw [List.range_succ_eq_map]
      simp

/-- C5 (witness). -/
theorem C5_difficulty_monotonic_witness :
    (scoresOf (blockCreatorRun [candA] 0 rngC1 10)).Pairwise
      (fun a b => b ≤ a) :=
  (C5_difficulty_monotonic [candA] rngC1 10).2.2.1

/-- C4 (the code at the failing input): a pool holding one fresh-stake
candidate of stake `1e10` is fully consumed inside the first chunk; the
loop then advances the chunk offset to 100 and evaluates
`cs.selections[100:]` on the 1-element list — an out-of-range slice, a
Go runtime panic — so the selection run faults instead of completing
(`nextCandidate` at offset 100 on the same pool shows the out-of-range
access directly). -/
theorem C4_chunk_advance_panics :
    (blockCreatorRun [candA] 0 rngC1 10).kind = .panicked ∧
    nextCandidate [candA] 100 = .panic := by
  constructor
  · decide
  · decide

set_option maxRecDepth 200000 in
/-- C1 (the code at the failing input): two runs of `GetBlockCreator`
at the same height (hence the same seed and the same draw stream) on
the identical 100-candidate pool disagree, because the global chunk
offset `NEXT` is left at 100 by the first run and never reset: the
first run completes assigning all 100 candidates, while the second —
started from the `NEXT` the first run left behind — immediately sees an
empty tail and returns the empty map. -/
theorem C1_repeated_runs_differ :
    (blockCreatorRun poolC1 0 rngC1 300).kind = .done ∧
    (blockCreatorRun poolC1 0 rngC1 300).st.next = 100 ∧
    (blockCreatorRun poolC1 0 rngC1 300).st.assigned.length = 100 ∧
    (blockCreatorRun poolC1 100 rngC1 300).kind = .done ∧
    (blockCreatorRun poolC1 100 rngC1 300).st.assigned = [] ∧
    bcOf (blockCreatorRun poolC1 0 rngC1 300).st.assigned ≠
      bcOf (blockCreatorRun poolC1 100 rngC1 300).st.assigned := by
  refine ⟨?_, ?_, ?_, ?_, ?_, ?_⟩
  · decide
  · decide
  · decide
  · decide
  · decide
  · decide

end Berith
